import Mathlib

/-
Verification of the TCX conversion program (src/convert_tcx.py).

The program is embedded shallowly:

* Document text is a `List Char`.  The regular-expression substitutions of
  `convert_tcx_string` (lines 148-192) are embedded by a generic scanning
  engine: a matcher `List Char → Option (List Char × List Char)` tries to
  match the pattern at the head of a suffix and returns the replacement
  together with the rest of the input after the matched span.  `reSubAll`
  replaces every non-overlapping occurrence left to right (the semantics of
  `re.sub` / `str.replace`); `subOnce` replaces the leftmost occurrence only
  (the semantics of `re.sub(..., count=1)`).
* The parsed XML tree is a first-child / next-sibling rose tree `XNode`;
  `elFindall tag e` is `e.findall('.//tag')` (all descendants in document
  order) and `(elFindall tag e).head?` is `e.find('.//tag')`.
* Machine floats of the source are modelled as `ℚ`; `float(...)` parsing of
  text and ISO-8601 timestamp parsing (`parse_time`) are passed in as total
  functions `String → ℚ` since no claim depends on their internals, only on
  the arithmetic done with their results.
* Fallible Python operations are modelled with `Except`: `pydiv` raises
  `ZeroDivisionError` on a zero divisor, exactly like Python's `/`.
-/

set_option maxHeartbeats 1000000

unseal Rat.mul Rat.inv Rat.sub Rat.add

namespace Tcx

/-! ### Occurrence of a pattern anywhere in a text -/

/-- `occursB p l` is true when the pattern `p` occurs contiguously anywhere
inside `l`. -/
def occursB (p : List Char) : List Char → Bool
  | [] => p.isPrefixOf []
  | c :: cs => p.isPrefixOf (c :: cs) || occursB p cs

/-! ### The substitution engine

`re.sub(pattern, repl, s)` and `str.replace` scan the text left to right and
replace each non-overlapping match, continuing after the replaced span; the
replacement text is not rescanned.  `subAllF` is that loop with explicit fuel
(the fuel only needs to exceed the text length, see `reSubAll`). -/

def subAllF (m : List Char → Option (List Char × List Char)) :
    Nat → List Char → List Char
  | 0, l => l
  | f + 1, l =>
    match m l with
    | some pr => pr.1 ++ subAllF m f pr.2
    | none =>
      match l with
      | [] => []
      | c :: cs => c :: subAllF m f cs

/-- Every match must consume at least one character of the input. -/
def Shrinking (m : List Char → Option (List Char × List Char)) : Prop :=
  ∀ l p r, m l = some (p, r) → r.length < l.length

/-- Global substitution, the model of `re.sub`/`str.replace` with a given
matcher. -/
def reSubAll (m : List Char → Option (List Char × List Char)) (l : List Char) :
    List Char :=
  subAllF m (l.length + 1) l

/-- Single substitution, the model of `re.sub(..., count=1)`. -/
def subOnce (m : List Char → Option (List Char × List Char)) :
    List Char → List Char
  | [] =>
    match m [] with
    | some pr => pr.1 ++ pr.2
    | none => []
  | c :: cs =>
    match m (c :: cs) with
    | some pr => pr.1 ++ pr.2
    | none => c :: subOnce m cs

/-! ### The literal patterns of `convert_tcx_string` (lines 148-192) -/

def creatorOpen : List Char := "<Creator>".data

def creatorClose : List Char := "</Creator>".data

def extOpen : List Char := "<Extensions>".data

def extClose : List Char := "</Extensions>".data

def trackOpenLit : List Char := "<Track>".data

def tpxStart : List Char := "<TPX".data

def tpxXmlnsLit : List Char :=
  "<TPX xmlns=\"http://www.garmin.com/xmlschemas/ActivityExtension/v2\">".data

def tpxNsOpen : List Char := "<ns3:TPX>".data

def tpxCloseTag : List Char := "</TPX>".data

def tpxNsClose : List Char := "</ns3:TPX>".data

def speedOpenTag : List Char := "<Speed>".data

def speedNsOpen : List Char := "<ns3:Speed>".data

def speedCloseTag : List Char := "</Speed>".data

def speedNsClose : List Char := "</ns3:Speed>".data

def wattsOpenTag : List Char := "<Watts>".data

def wattsNsOpen : List Char := "<ns3:Watts>".data

def wattsCloseTag : List Char := "</Watts>".data

def wattsNsClose : List Char := "</ns3:Watts>".data

def resOpen : List Char := "<Resistance>".data

def resClose : List Char := "</Resistance>".data

def valueOpen : List Char := "<Value>".data

def valueClose : List Char := "</Value>".data

def cadenceOpen : List Char := "<Cadence>".data

def cadenceClose : List Char := "</Cadence>".data

def dotZero : List Char := ".0".data

def timeOpen : List Char := "<Time>".data

def timeClose : List Char := "</Time>".data

/-- Python's `\s` (ASCII range), used by the `\s*` parts of the lap-extension
pattern. -/
def isPySpace (c : Char) : Bool :=
  c == ' ' || c == '\t' || c == '\n' || c == '\r' || c == '\x0b' || c == '\x0c'

/-- The character class `[\d.]` of the speed-injection pattern. -/
def isDigitDot (c : Char) : Bool :=
  c.isDigit || c == '.'

/-! ### The matchers for the individual substitutions -/

/-- Matcher for a plain literal substitution: `str.replace(s, t)` and
`re.sub` with a fully literal pattern. -/
def mLit (s t : List Char) (l : List Char) : Option (List Char × List Char) :=
  if s.isPrefixOf l && !s.isEmpty then some (t, l.drop s.length) else none

/-- Scan for the closing literal `cls`, any characters allowed before it
(`.*?` with `re.DOTALL`); returns the rest of the text after `cls`. -/
def findCloseFrom (cls : List Char) : List Char → Option (List Char)
  | [] => none
  | c :: cs =>
    if cls.isPrefixOf (c :: cs) then some ((c :: cs).drop cls.length)
    else findCloseFrom cls cs

/-- Scan for the closing literal `cls` with only non-newline characters before
it (`.*?` without `re.DOTALL`); returns the rest after `cls`. -/
def findCloseLine (cls : List Char) : List Char → Option (List Char)
  | [] => none
  | c :: cs =>
    if cls.isPrefixOf (c :: cs) then some ((c :: cs).drop cls.length)
    else if c = '\n' then none
    else findCloseLine cls cs

/-- Matcher for `r'<Creator>.*?</Creator>'` with `re.DOTALL` (line 149),
replacement empty. -/
def mCreator (l : List Char) : Option (List Char × List Char) :=
  if creatorOpen.isPrefixOf l then
    (findCloseFrom creatorClose (l.drop creatorOpen.length)).map fun r => ([], r)
  else none

/-- Matcher for `r'<Resistance>.*?</Resistance>'` without `re.DOTALL`
(line 176), replacement empty. -/
def mRes (l : List Char) : Option (List Char × List Char) :=
  if resOpen.isPrefixOf l then
    (findCloseLine resClose (l.drop resOpen.length)).map fun r => ([], r)
  else none

/-- The tail of the lap-extension pattern after `<TPX[^>]*>`:
`.*?</TPX>\s*</Extensions>\s*(?=<Track>)`.  The non-greedy `.*?` retries with
ever later `</TPX>` occurrences, which the fuelled loop reproduces; the match
ends just before `<Track>` (the lookahead), consuming trailing whitespace. -/
def lapExtTailF : Nat → List Char → Option (List Char)
  | 0, _ => none
  | f + 1, l =>
    match findCloseFrom tpxCloseTag l with
    | none => none
    | some after =>
      if extClose.isPrefixOf (after.dropWhile isPySpace) then
        if trackOpenLit.isPrefixOf
            (((after.dropWhile isPySpace).drop extClose.length).dropWhile isPySpace) then
          some (((after.dropWhile isPySpace).drop extClose.length).dropWhile isPySpace)
        else lapExtTailF f after
      else lapExtTailF f after

/-- Matcher for the lap-extension pattern
`r'<Extensions>\s*<TPX[^>]*>.*?</TPX>\s*</Extensions>\s*(?=<Track>)'`
with `re.DOTALL` (lines 152-157), replacement empty. -/
def mLapExt (l : List Char) : Option (List Char × List Char) :=
  if extOpen.isPrefixOf l then
    if tpxStart.isPrefixOf ((l.drop extOpen.length).dropWhile isPySpace) then
      match (((l.drop extOpen.length).dropWhile isPySpace).drop
          tpxStart.length).dropWhile (fun c => !(c = '>')) with
      | '>' :: rest => (lapExtTailF (rest.length + 1) rest).map fun r => ([], r)
      | _ => none
    else none
  else none

/-- Matcher for the numeric normalisations
`r'<Tag>(\d+)\.0</Tag>'` → `r'<Tag>\1</Tag>'` (lines 179-185). -/
def mNorm (op cl : List Char) (l : List Char) : Option (List Char × List Char) :=
  if op.isPrefixOf l then
    if !((l.drop op.length).takeWhile Char.isDigit).isEmpty &&
        (dotZero ++ cl).isPrefixOf ((l.drop op.length).drop
          ((l.drop op.length).takeWhile Char.isDigit).length) then
      some (op ++ (l.drop op.length).takeWhile Char.isDigit ++ cl,
        ((l.drop op.length).drop
          ((l.drop op.length).takeWhile Char.isDigit).length).drop
            (dotZero ++ cl).length)
    else none
  else none

/-- The part `<ns3:Speed>[\d.]+<` of the speed-injection pattern, searched
for with a non-greedy `.*?` under `re.DOTALL`.  On success the text splits as
`pre ++ run ++ rest` where `pre` ends in `<ns3:Speed>`, `run` is the maximal
non-empty `[\d.]` block and `rest` starts with `<`. -/
def findSpeedRun : List Char → Option (List Char × List Char × List Char)
  | [] => none
  | c :: cs =>
    if speedNsOpen.isPrefixOf (c :: cs) then
      if !(((c :: cs).drop speedNsOpen.length).takeWhile isDigitDot).isEmpty &&
          (((c :: cs).drop speedNsOpen.length).drop
            (((c :: cs).drop speedNsOpen.length).takeWhile isDigitDot).length).head?
              == some '<' then
        some (speedNsOpen, ((c :: cs).drop speedNsOpen.length).takeWhile isDigitDot,
          ((c :: cs).drop speedNsOpen.length).drop
            (((c :: cs).drop speedNsOpen.length).takeWhile isDigitDot).length)
      else (findSpeedRun cs).map fun x => (c :: x.1, x.2.1, x.2.2)
    else (findSpeedRun cs).map fun x => (c :: x.1, x.2.1, x.2.2)

/-- The full `<Time>` pattern for a given timestamp string. -/
def timePat (t : List Char) : List Char :=
  timeOpen ++ t ++ timeClose

/-- Matcher for the speed-injection pattern
`rf'(<Time>{re.escape(t)}</Time>.*?<ns3:Speed>)[\d.]+(<)'` with replacement
`rf'\g<1>{speed}\g<2>'` (lines 190-192); `v` is the formatted speed text. -/
def mInject (t v : List Char) (l : List Char) : Option (List Char × List Char) :=
  if (timePat t).isPrefixOf l then
    (findSpeedRun (l.drop (timePat t).length)).map fun x =>
      (timePat t ++ x.1 ++ v, x.2.2)
  else none

/-! ### The rewriting pipeline -/

/-- `content.replace(s, t)` / literal `re.sub`. -/
def pyReplace (s t : List Char) (l : List Char) : List Char :=
  reSubAll (mLit s t) l

/-- Line 149: remove Creator elements. -/
def removeCreator (l : List Char) : List Char :=
  reSubAll mCreator l

/-- Lines 152-157: remove lap-level aggregate extension blocks. -/
def removeLapExtensions (l : List Char) : List Char :=
  reSubAll mLapExt l

/-- Line 176: remove Resistance elements. -/
def removeResistance (l : List Char) : List Char :=
  reSubAll mRes l

/-- Line 179: `<Value>(\d+)\.0</Value>` → `<Value>\1</Value>`. -/
def normValueTags (l : List Char) : List Char :=
  reSubAll (mNorm valueOpen valueClose) l

/-- Line 182: `<Cadence>(\d+)\.0</Cadence>` → `<Cadence>\1</Cadence>`. -/
def normCadenceTags (l : List Char) : List Char :=
  reSubAll (mNorm cadenceOpen cadenceClose) l

/-- Line 185: `<ns3:Watts>(\d+)\.0</ns3:Watts>` → `<ns3:Watts>\1</ns3:Watts>`. -/
def normWattsTags (l : List Char) : List Char :=
  reSubAll (mNorm wattsNsOpen wattsNsClose) l

/-- Lines 190-192: inject one recomputed speed value, at most one replacement
per timestamp (`count=1`). -/
def injectOne (t v : List Char) (l : List Char) : List Char :=
  subOnce (mInject t v) l

/-- Lines 148-176 in order: Creator removal, lap-extension removal, the TPX /
Speed / Watts namespace-prefix rewrites, and Resistance removal. -/
def applyRemovalAndNamespaceRules (l : List Char) : List Char :=
  removeResistance
    (pyReplace wattsCloseTag wattsNsClose
      (pyReplace wattsOpenTag wattsNsOpen
        (pyReplace speedCloseTag speedNsClose
          (pyReplace speedOpenTag speedNsOpen
            (pyReplace tpxCloseTag tpxNsClose
              (pyReplace tpxXmlnsLit tpxNsOpen
                (removeLapExtensions
                  (removeCreator l))))))))

/-! ### The parsed XML tree

`ET.fromstring` yields an element tree; elements are embedded as a
first-child / next-sibling rose tree so that every traversal is plainly
structural.  `XNode.nil` is the empty forest.  An element returned by a query
carries its own subtree and an empty sibling field. -/

inductive XNode : Type where
  | nil : XNode
  | node (tag : String) (text : String) (child : XNode) (sib : XNode) : XNode
deriving DecidableEq

/-- Chain a list of elements into a sibling forest. -/
def forestOf : List XNode → XNode
  | [] => .nil
  | .nil :: rest => forestOf rest
  | .node t x c _ :: rest => .node t x c (forestOf rest)

/-- Build an element from tag, text and children (ET's element text is `None`
for an empty element; that is modelled as `""`). -/
def el (tag text : String) (children : List XNode) : XNode :=
  .node tag text (forestOf children) .nil

/-- All elements of a forest whose tag equals `tag`, in document order
(an element comes before its own descendants, descendants before later
siblings) — the order `findall` returns. -/
def descendantsMatching (tag : String) : XNode → List XNode
  | .nil => []
  | .node t x c s =>
    (if t = tag then [XNode.node t x c .nil] else [])
      ++ descendantsMatching tag c ++ descendantsMatching tag s

/-- `e.findall('.//tag')`: all matching strict descendants of the element. -/
def elFindall (tag : String) : XNode → List XNode
  | .nil => []
  | .node _ _ c _ => descendantsMatching tag c

/-- The text of an element (`""` both for `XNode.nil` and for ET's `None`). -/
def textOf : XNode → String
  | .nil => ""
  | .node _ x _ _ => x

/-- Namespace-qualified tag, the `'{uri}Name'` form ET uses. -/
def nsTag (ns n : String) : String :=
  "\x7b" ++ ns ++ "\x7d" ++ n

def tcxNS : String := "http://www.garmin.com/xmlschemas/TrainingCenterDatabase/v2"

def actTag : String := nsTag tcxNS "Activity"

def lapTag : String := nsTag tcxNS "Lap"

def trackTag : String := nsTag tcxNS "Track"

def trackpointTag : String := nsTag tcxNS "Trackpoint"

def timeTag : String := nsTag tcxNS "Time"

def distTag : String := nsTag tcxNS "DistanceMeters"

/-- `tp.find('.//Time')` (line 131). -/
def timeEl (tp : XNode) : Option XNode :=
  (elFindall timeTag tp).head?

/-- `tp.find('.//DistanceMeters')` (line 132). -/
def distEl (tp : XNode) : Option XNode :=
  (elFindall distTag tp).head?

/-! ### The speed computation (`calculate_speed`, lines 29-51)

`pt` models `parse_time` composed with `total_seconds` relative to any fixed
epoch: a total function from timestamp strings to seconds, so that
`(parse_time(c) - parse_time(p)).total_seconds() = pt c - pt p`.  `pf` models
`float(...)` on distance text. -/

/-- Python's `/`, which raises `ZeroDivisionError` on a zero divisor. -/
def pydiv (a b : ℚ) : Except String ℚ :=
  if b = 0 then Except.error "ZeroDivisionError" else Except.ok (a / b)

/-- `calculate_speed` exactly as written, with the division fallible. -/
def calculate_speed (pt : String → ℚ) (prev_distance curr_distance : ℚ)
    (prev_time : Option String) (curr_time : String) : Except String ℚ :=
  match prev_time with
  | none => Except.ok 0
  | some p =>
    let time_delta := pt curr_time - pt p
    if time_delta = 0 then Except.ok 0
    else pydiv (curr_distance - prev_distance) time_delta

/-- The value `calculate_speed` returns; total because the `time_delta == 0`
guard precedes the division (`calculate_speed_never_divides_by_zero`). -/
def calcSpeed (pt : String → ℚ) (prev_distance curr_distance : ℚ)
    (prev_time : Option String) (curr_time : String) : ℚ :=
  match prev_time with
  | none => 0
  | some p =>
    let time_delta := pt curr_time - pt p
    if time_delta = 0 then 0
    else (curr_distance - prev_distance) / time_delta

/-- The speed lookup table `speed_data`: a Python dict with string keys, i.e.
an insertion-ordered association list. -/
def SpeedDict : Type := List (String × ℚ)

/-- `d[k] = v` on a Python dict: update in place if the key exists, else
append. -/
def dictInsert (k : String) (v : ℚ) : SpeedDict → SpeedDict
  | [] => [(k, v)]
  | e :: rest => if e.1 = k then (k, v) :: rest else e :: dictInsert k v rest

/-- `d.get(k)`: the value stored at `k`, if any. -/
def dictLookup (k : String) : SpeedDict → Option ℚ
  | [] => none
  | e :: rest => if e.1 = k then some e.2 else dictLookup k rest

/-- Folding a list of writes into a dict, in order. -/
def dictFold (d : SpeedDict) (ws : List (String × ℚ)) : SpeedDict :=
  ws.foldl (fun d w => dictInsert w.1 w.2 d) d

/-- The trackpoint loop of lines 130-144: walk the trackpoints of one track,
skip those missing Time or DistanceMeters, thread `prev_distance`/`prev_time`
(initially `0`/`None` per lap) and store each computed speed under its
timestamp. -/
def processTrackpoints (pf pt : String → ℚ) :
    List XNode → ℚ → Option String → SpeedDict → SpeedDict
  | [], _, _, d => d
  | tp :: rest, prevD, prevT, d =>
    match timeEl tp, distEl tp with
    | some te, some de =>
      let t := textOf te
      let dv := pf (textOf de)
      processTrackpoints pf pt rest dv (some t)
        (dictInsert t (calcSpeed pt prevD dv prevT t) d)
    | _, _ => processTrackpoints pf pt rest prevD prevT d

/-- Same walk, observed as the ordered list of `(timestamp, speed)` writes it
performs. -/
def trackComputedSpeeds (pf pt : String → ℚ) :
    List XNode → ℚ → Option String → List (String × ℚ)
  | [], _, _ => []
  | tp :: rest, prevD, prevT =>
    match timeEl tp, distEl tp with
    | some te, some de =>
      let t := textOf te
      let dv := pf (textOf de)
      (t, calcSpeed pt prevD dv prevT t) :: trackComputedSpeeds pf pt rest dv (some t)
    | _, _ => trackComputedSpeeds pf pt rest prevD prevT

/-- Lines 121-144 for one lap: `lap.find('.//Track')` takes only the first
Track of the lap; its trackpoints are walked with `prev_distance = 0`,
`prev_time = None`. -/
def processLap (pf pt : String → ℚ) (d : SpeedDict) (lap : XNode) : SpeedDict :=
  match (elFindall trackTag lap).head? with
  | none => d
  | some tk => processTrackpoints pf pt (elFindall trackpointTag tk) 0 none d

/-- The lap loop inside one activity (`activity.findall('.//Lap')`). -/
def processActivity (pf pt : String → ℚ) (d : SpeedDict) (a : XNode) : SpeedDict :=
  (elFindall lapTag a).foldl (processLap pf pt) d

/-- Lines 117-144: the speed lookup table for the whole document. -/
def buildSpeedData (pf pt : String → ℚ) (root : XNode) : SpeedDict :=
  (elFindall actTag root).foldl (processActivity pf pt) []

/-- Concatenating map, used to flatten per-lap write lists. -/
def catMap {α β : Type} (f : α → List β) : List α → List β
  | [] => []
  | x :: xs => f x ++ catMap f xs

/-- The writes contributed by one lap (empty if the lap has no Track). -/
def lapWrites (pf pt : String → ℚ) (lap : XNode) : List (String × ℚ) :=
  match (elFindall trackTag lap).head? with
  | none => []
  | some tk => trackComputedSpeeds pf pt (elFindall trackpointTag tk) 0 none

/-- The writes contributed by one activity. -/
def activityWrites (pf pt : String → ℚ) (a : XNode) : List (String × ℚ) :=
  catMap (lapWrites pf pt) (elFindall lapTag a)

/-- All dict writes of the whole document, in execution order. -/
def docWrites (pf pt : String → ℚ) (root : XNode) : List (String × ℚ) :=
  catMap (activityWrites pf pt) (elFindall actTag root)

/-! ### The serializer (lines 194-211) -/

def xmlHeader : List Char := "<?xml version=\"1.0\" encoding=\"UTF-8\"?>\n".data

/-- The final emission step: the whole `try` block (post-rewrite
`ET.fromstring`, `indent_xml`, `ET.tostring`) is one fallible stage
`prettyPrint`; when it fails (any exception) the transformed text is written
as-is, with no declaration header and no indentation. -/
def emitFinal (prettyPrint : List Char → Option (List Char))
    (content : List Char) : List Char :=
  match prettyPrint content with
  | some rendered => xmlHeader ++ rendered
  | none => content

/-! ### Concrete documents used to instantiate and refute the claims -/

/-- A trackpoint with a Time child and a DistanceMeters child. -/
def sampleTp (t d : String) : XNode :=
  el trackpointTag "" [el timeTag t [], el distTag d []]

def mkTrack (tps : List XNode) : XNode := el trackTag "" tps

def mkLap (tracks : List XNode) : XNode := el lapTag "" tracks

def mkActivity (laps : List XNode) : XNode := el actTag "" laps

def mkDoc (acts : List XNode) : XNode :=
  el (nsTag tcxNS "TrainingCenterDatabase") ""
    [el (nsTag tcxNS "Activities") "" acts]

/-- A concrete `float(...)` on the distance texts used in the examples. -/
def numQ : String → ℚ := fun s =>
  if s = "5" then 5 else if s = "10" then 10 else if s = "25" then 25 else 0

/-- A concrete `parse_time`-in-seconds on the timestamps used in the examples. -/
def timeQ : String → ℚ := fun s =>
  if s = "T0" then 0 else if s = "T1" then 10 else if s = "S1" then 100 else 0

def c3Track1 : XNode := mkTrack [sampleTp "T0" "5", sampleTp "T1" "10"]

def c3Track2 : XNode := mkTrack [sampleTp "S1" "0", sampleTp "T0" "10"]

/-- Two laps whose tracks share the timestamp string `T0`. -/
def c3Doc : XNode := mkDoc [mkActivity [mkLap [c3Track1], mkLap [c3Track2]]]

/-- One activity, one lap, one track — the plain case. -/
def c3wDoc : XNode := mkDoc [mkActivity [mkLap [c3Track1]]]

def c7Track1 : XNode := mkTrack [sampleTp "T0" "5"]

def c7Track2 : XNode := mkTrack [sampleTp "TX" "10"]

/-- A lap holding two Track elements. -/
def c7Lap : XNode := mkLap [c7Track1, c7Track2]

def c7Doc : XNode := mkDoc [mkActivity [c7Lap]]

/-- A sample without a Speed element followed by a sample with one. -/
def c2Doc : List Char :=
  "<Trackpoint><Time>A</Time></Trackpoint><Trackpoint><Time>B</Time><ns3:Speed>7.5</ns3:Speed></Trackpoint>".data

/-- What the injection of timestamp `A` makes of `c2Doc`: sample `B`'s Speed
content is overwritten. -/
def c2Out : List Char :=
  "<Trackpoint><Time>A</Time></Trackpoint><Trackpoint><Time>B</Time><ns3:Speed>0</ns3:Speed></Trackpoint>".data

/-- A Resistance element whose content spans two lines. -/
def c5Doc : List Char := "<Resistance>10\n20</Resistance>".data

/-- A snippet already in the target form: no Creator, no Resistance, the
extension elements already carry the `ns3:` prefix. -/
def c8Doc : List Char :=
  "<Trackpoint><Extensions><ns3:TPX><ns3:Speed>1.5</ns3:Speed><ns3:Watts>120</ns3:Watts></ns3:TPX></Extensions></Trackpoint>".data

/-- The claim's own example of a value that must stay untouched. -/
def hr142 : List Char := "<Value>142.4</Value>".data

/-- Two consecutive valid samples carrying the same timestamp. -/
def c4Tps : List XNode := [sampleTp "T0" "5", sampleTp "T0" "10"]

/-! ### List helper theorems -/

/-- A list prefixes its own extension by appends. -/
theorem prefixOf_self_append (s t : List Char) : s.isPrefixOf (s ++ t) = true := by
  induction s with
  | nil => cases t <;> rfl
  | cons c cs ih => simp [List.isPrefixOf, ih]

/-- Successful prefix tests decompose the list. -/
theorem prefixOf_exists {s l : List Char} (h : s.isPrefixOf l = true) :
    ∃ r, l = s ++ r := by
  induction s generalizing l with
  | nil => exact ⟨l, rfl⟩
  | cons c cs ih =>
    cases l with
    | nil => simp [List.isPrefixOf] at h
    | cons b bs =>
      simp only [List.isPrefixOf, Bool.and_eq_true, beq_iff_eq] at h
      obtain ⟨rfl, h2⟩ := h
      obtain ⟨r, rfl⟩ := ih h2
      exact ⟨r, rfl⟩

/-- Prefix tests are transitive. -/
theorem prefixOf_trans {p q l : List Char} (h1 : p.isPrefixOf q = true)
    (h2 : q.isPrefixOf l = true) : p.isPrefixOf l = true := by
  obtain ⟨r, rfl⟩ := prefixOf_exists h2
  obtain ⟨r2, rfl⟩ := prefixOf_exists h1
  rw [List.append_assoc]
  exact prefixOf_self_append _ _

/-- Dropping the length of the left part of an append yields the right part. -/
theorem drop_len_append (s t : List Char) : (s ++ t).drop s.length = t := by
  induction s with
  | nil => rfl
  | cons c cs ih =>
    simp only [List.cons_append, List.length_cons, List.drop_succ_cons]
    exact ih

/-- `takeWhile` passes over a block whose elements all satisfy the predicate. -/
theorem takeWhile_append_all {p : Char → Bool} {x : List Char} (y : List Char)
    (hx : ∀ c ∈ x, p c = true) :
    (x ++ y).takeWhile p = x ++ y.takeWhile p := by
  induction x with
  | nil => rfl
  | cons c cs ih =>
    have hc : p c = true := hx c (by simp)
    simp only [List.cons_append, List.takeWhile_cons, hc, if_true]
    rw [ih fun d hd => hx d (by simp [hd])]

/-- `takeWhile` stops at a failing head. -/
theorem takeWhile_cons_neg {p : Char → Bool} {c : Char} (cs : List Char)
    (hc : p c = false) : (c :: cs).takeWhile p = [] := by
  simp [List.takeWhile_cons, hc]

/-- `dropWhile` is a `drop` of the length of the taken part. -/
theorem dropWhile_eq_drop (p : Char → Bool) (l : List Char) :
    l.dropWhile p = l.drop (l.takeWhile p).length := by
  induction l with
  | nil => rfl
  | cons c cs ih =>
    by_cases hc : p c = true
    · simp [List.dropWhile_cons, List.takeWhile_cons, hc, ih]
    · simp [List.dropWhile_cons, List.takeWhile_cons, Bool.of_not_eq_true hc]

/-- `dropWhile` never lengthens a list. -/
theorem length_dropWhile_le (p : Char → Bool) (l : List Char) :
    (l.dropWhile p).length ≤ l.length := by
  induction l with
  | nil => simp
  | cons c cs ih =>
    by_cases hc : p c = true
    · simp only [List.dropWhile_cons, hc, if_true]
      exact Nat.le_succ_of_le ih
    · simp [List.dropWhile_cons, Bool.of_not_eq_true hc]

/-! ### Theorems about `occursB` -/

theorem occursB_nil (p : List Char) : occursB p [] = p.isPrefixOf [] := rfl

theorem occursB_cons (p : List Char) (c : Char) (cs : List Char) :
    occursB p (c :: cs) = (p.isPrefixOf (c :: cs) || occursB p cs) := rfl

theorem occursB_false_no_start {p l : List Char} (h : occursB p l = false) :
    ∀ i, p.isPrefixOf (l.drop i) = false := by
  intro i
  induction l generalizing i with
  | nil =>
    rw [occursB_nil] at h
    simpa using h
  | cons c cs ih =>
    rw [occursB_cons, Bool.or_eq_false_iff] at h
    cases i with
    | zero => exact h.1
    | succ j => exact ih h.2 j

theorem occursB_exists_start {p l : List Char} (h : occursB p l = true) :
    ∃ i, p.isPrefixOf (l.drop i) = true := by
  induction l with
  | nil =>
    rw [occursB_nil] at h
    exact ⟨0, h⟩
  | cons c cs ih =>
    rw [occursB_cons, Bool.or_eq_true] at h
    cases h with
    | inl h => exact ⟨0, h⟩
    | inr h =>
      obtain ⟨j, hj⟩ := ih h
      exact ⟨j + 1, by simpa using hj⟩

theorem occursB_drop_false {p l : List Char} (h : occursB p l = false) (i : Nat) :
    occursB p (l.drop i) = false := by
  cases hb : occursB p (l.drop i) with
  | false => rfl
  | true =>
    exfalso
    obtain ⟨j, hj⟩ := occursB_exists_start hb
    rw [List.drop_drop] at hj
    rw [occursB_false_no_start h (i + j)] at hj
    exact Bool.false_ne_true hj

/-! ### Theorems about the substitution engine -/

theorem subAllF_succ_some {m : List Char → Option (List Char × List Char)}
    {l p r : List Char} {f : Nat} (h : m l = some (p, r)) :
    subAllF m (f + 1) l = p ++ subAllF m f r := by
  simp [subAllF, h]

theorem subAllF_succ_none_nil {m : List Char → Option (List Char × List Char)}
    {f : Nat} (h : m [] = none) : subAllF m (f + 1) [] = [] := by
  simp [subAllF, h]

theorem subAllF_succ_none_cons {m : List Char → Option (List Char × List Char)}
    {c : Char} {cs : List Char} {f : Nat} (h : m (c :: cs) = none) :
    subAllF m (f + 1) (c :: cs) = c :: subAllF m f cs := by
  simp [subAllF, h]

theorem subAllF_fuel {m : List Char → Option (List Char × List Char)}
    (hm : Shrinking m) :
    ∀ f1 f2 l, l.length < f1 → l.length < f2 → subAllF m f1 l = subAllF m f2 l := by
  intro f1
  induction f1 with
  | zero => intro f2 l h1 _; exact absurd h1 (Nat.not_lt_zero _)
  | succ f ih =>
    intro f2 l h1 h2
    cases f2 with
    | zero => exact absurd h2 (Nat.not_lt_zero _)
    | succ g =>
      cases hml : m l with
      | some pr =>
        obtain ⟨p, r⟩ := pr
        have hr : r.length < l.length := hm l p r hml
        rw [subAllF_succ_some hml, subAllF_succ_some hml,
          ih g r (Nat.lt_of_lt_of_le hr (Nat.lt_succ_iff.mp h1))
            (Nat.lt_of_lt_of_le hr (Nat.lt_succ_iff.mp h2))]
      | none =>
        cases l with
        | nil => rw [subAllF_succ_none_nil hml, subAllF_succ_none_nil hml]
        | cons c cs =>
          rw [subAllF_succ_none_cons hml, subAllF_succ_none_cons hml,
            ih g cs (Nat.lt_of_succ_lt_succ h1) (Nat.lt_of_succ_lt_succ h2)]

theorem reSubAll_match {m : List Char → Option (List Char × List Char)}
    (hm : Shrinking m) {l p r : List Char} (h : m l = some (p, r)) :
    reSubAll m l = p ++ reSubAll m r := by
  have hr : r.length < l.length := hm l p r h
  unfold reSubAll
  rw [subAllF_succ_some h,
    subAllF_fuel hm l.length (r.length + 1) r hr (Nat.lt_succ_self _)]

theorem reSubAll_cons {m : List Char → Option (List Char × List Char)}
    {c : Char} {cs : List Char} (h : m (c :: cs) = none) :
    reSubAll m (c :: cs) = c :: reSubAll m cs := by
  unfold reSubAll
  rw [List.length_cons, subAllF_succ_none_cons h]

theorem reSubAll_nil {m : List Char → Option (List Char × List Char)}
    (hm : Shrinking m) : reSubAll m [] = [] := by
  unfold reSubAll
  cases hml : m [] with
  | some pr =>
    have := hm [] pr.1 pr.2 (by rw [hml])
    simp at this
  | none => rw [List.length_nil, subAllF_succ_none_nil hml]

theorem reSubAll_copy {m : List Char → Option (List Char × List Char)} :
    ∀ a b : List Char, (∀ i, i < a.length → m ((a ++ b).drop i) = none) →
      reSubAll m (a ++ b) = a ++ reSubAll m b := by
  intro a
  induction a with
  | nil => intro b _; rfl
  | cons c cs ih =>
    intro b h
    have h0 : m (c :: (cs ++ b)) = none := by
      have := h 0 (Nat.succ_pos _)
      simpa using this
    have htail : ∀ i, i < cs.length → m ((cs ++ b).drop i) = none := by
      intro i hi
      have := h (i + 1) (Nat.succ_lt_succ hi)
      simpa using this
    rw [List.cons_append, reSubAll_cons h0, ih b htail]
    rfl

theorem reSubAll_id {m : List Char → Option (List Char × List Char)}
    (hm : Shrinking m) {l : List Char}
    (h : ∀ i, i < l.length → m (l.drop i) = none) : reSubAll m l = l := by
  have := reSubAll_copy l [] (by simpa using h)
  simpa [reSubAll_nil hm] using this

theorem subOnce_match {m : List Char → Option (List Char × List Char)}
    {l p r : List Char} (h : m l = some (p, r)) : subOnce m l = p ++ r := by
  cases l with
  | nil => simp [subOnce, h]
  | cons c cs => simp [subOnce, h]

theorem subOnce_cons {m : List Char → Option (List Char × List Char)}
    {c : Char} {cs : List Char} (h : m (c :: cs) = none) :
    subOnce m (c :: cs) = c :: subOnce m cs := by
  simp [subOnce, h]

theorem subOnce_copy {m : List Char → Option (List Char × List Char)} :
    ∀ a b : List Char, (∀ i, i < a.length → m ((a ++ b).drop i) = none) →
      subOnce m (a ++ b) = a ++ subOnce m b := by
  intro a
  induction a with
  | nil => intro b _; rfl
  | cons c cs ih =>
    intro b h
    have h0 : m (c :: (cs ++ b)) = none := by
      have := h 0 (Nat.succ_pos _)
      simpa using this
    have htail : ∀ i, i < cs.length → m ((cs ++ b).drop i) = none := by
      intro i hi
      have := h (i + 1) (Nat.succ_lt_succ hi)
      simpa using this
    rw [List.cons_append, subOnce_cons h0, ih b htail]
    rfl

/-! ### The matchers shrink their input -/

theorem findCloseFrom_lt {cls : List Char} (hc : 0 < cls.length) :
    ∀ {x r : List Char}, findCloseFrom cls x = some r → r.length < x.length := by
  intro x
  induction x with
  | nil => intro r h; simp [findCloseFrom] at h
  | cons c cs ih =>
    intro r h
    rw [findCloseFrom] at h
    split at h
    · have h2 : (c :: cs).drop cls.length = r := by simpa using h
      rw [← h2, List.length_drop]
      simp only [List.length_cons]
      omega
    · exact Nat.lt_succ_of_lt (ih h)

theorem findCloseLine_lt {cls : List Char} (hc : 0 < cls.length) :
    ∀ {x r : List Char}, findCloseLine cls x = some r → r.length < x.length := by
  intro x
  induction x with
  | nil => intro r h; simp [findCloseLine] at h
  | cons c cs ih =>
    intro r h
    rw [findCloseLine] at h
    split at h
    · have h2 : (c :: cs).drop cls.length = r := by simpa using h
      rw [← h2, List.length_drop]
      simp only [List.length_cons]
      omega
    · split at h
      · simp at h
      · exact Nat.lt_succ_of_lt (ih h)

theorem lapExtTailF_lt :
    ∀ (f : Nat) {x r : List Char}, lapExtTailF f x = some r → r.length < x.length := by
  intro f
  induction f with
  | zero => intro x r h; simp [lapExtTailF] at h
  | succ f ih =>
    intro x r h
    rw [lapExtTailF] at h
    split at h
    · simp at h
    · next after heq =>
      have hafter : after.length < x.length := findCloseFrom_lt (by decide) heq
      split at h
      · split at h
        · have h2 : ((after.dropWhile isPySpace).drop extClose.length).dropWhile
              isPySpace = r := by simpa using h
          rw [← h2]
          have s1 := length_dropWhile_le isPySpace
            ((after.dropWhile isPySpace).drop extClose.length)
          have s2 : ((after.dropWhile isPySpace).drop extClose.length).length
              ≤ (after.dropWhile isPySpace).length := by
            rw [List.length_drop]; omega
          have s3 := length_dropWhile_le isPySpace after
          omega
        · exact Nat.lt_trans (ih h) hafter
      · exact Nat.lt_trans (ih h) hafter

theorem shrink_mLit (s t : List Char) : Shrinking (mLit s t) := by
  intro l p r h
  unfold mLit at h
  split at h
  · next hg =>
    obtain ⟨hpre, hne⟩ := Bool.and_eq_true_iff.mp hg
    obtain ⟨x, rfl⟩ := prefixOf_exists hpre
    have h2 : (s ++ x).drop s.length = r := by
      have h3 : ((t, (s ++ x).drop s.length) : List Char × List Char) = (p, r) := by
        simpa using h
      exact congrArg Prod.snd h3
    rw [← h2, drop_len_append, List.length_append]
    have hs : s ≠ [] := by
      intro hnil; rw [hnil] at hne; simp at hne
    have : 0 < s.length := List.length_pos.mpr hs
    omega
  · simp at h

theorem shrink_mCreator : Shrinking mCreator := by
  intro l p r h
  unfold mCreator at h
  split at h
  · next hg =>
    obtain ⟨r0, hr0, heq⟩ := Option.map_eq_some'.mp h
    have h2 : r0 = r := congrArg Prod.snd heq
    rw [← h2]
    obtain ⟨x, rfl⟩ := prefixOf_exists hg
    have h1 : r0.length < ((creatorOpen ++ x).drop creatorOpen.length).length :=
      findCloseFrom_lt (by decide) hr0
    rw [drop_len_append] at h1
    rw [List.length_append]
    omega
  · simp at h

theorem shrink_mRes : Shrinking mRes := by
  intro l p r h
  unfold mRes at h
  split at h
  · next hg =>
    obtain ⟨r0, hr0, heq⟩ := Option.map_eq_some'.mp h
    have h2 : r0 = r := congrArg Prod.snd heq
    rw [← h2]
    obtain ⟨x, rfl⟩ := prefixOf_exists hg
    have h1 : r0.length < ((resOpen ++ x).drop resOpen.length).length :=
      findCloseLine_lt (by decide) hr0
    rw [drop_len_append] at h1
    rw [List.length_append]
    omega
  · simp at h

theorem shrink_mLapExt : Shrinking mLapExt := by
  intro l p r h
  unfold mLapExt at h
  split at h
  · next hg =>
    split at h
    · split at h
      · next c rest heq =>
        obtain ⟨r0, hr0, heq2⟩ := Option.map_eq_some'.mp h
        have h2 : r0 = r := congrArg Prod.snd heq2
        rw [← h2]
        have h1 : r0.length < rest.length := lapExtTailF_lt _ hr0
        have h3 : rest.length + 1 =
            ((((l.drop extOpen.length).dropWhile isPySpace).drop
              tpxStart.length).dropWhile (fun c => !(c = '>'))).length := by
          rw [heq]
          rfl
        have s1 := length_dropWhile_le (fun c => !(c = '>'))
          (((l.drop extOpen.length).dropWhile isPySpace).drop tpxStart.length)
        have s2 : (((l.drop extOpen.length).dropWhile isPySpace).drop
            tpxStart.length).length
            ≤ ((l.drop extOpen.length).dropWhile isPySpace).length := by
          rw [List.length_drop]; omega
        have s3 := length_dropWhile_le isPySpace (l.drop extOpen.length)
        have s4 : (l.drop extOpen.length).length ≤ l.length := by
          rw [List.length_drop]; omega
        omega
      · simp at h
    · simp at h
  · simp at h

theorem shrink_mNorm (op cl : List Char) (hop : 0 < op.length) :
    Shrinking (mNorm op cl) := by
  intro l p r h
  unfold mNorm at h
  split at h
  · next hg =>
    split at h
    · have h2 : ((l.drop op.length).drop
          ((l.drop op.length).takeWhile Char.isDigit).length).drop
            (dotZero ++ cl).length = r := by
        have h3 : (op ++ (l.drop op.length).takeWhile Char.isDigit ++ cl,
            ((l.drop op.length).drop
              ((l.drop op.length).takeWhile Char.isDigit).length).drop
                (dotZero ++ cl).length) = ((p, r) : List Char × List Char) := by
          simpa using h
        exact congrArg Prod.snd h3
      rw [← h2]
      obtain ⟨x, hx⟩ := prefixOf_exists hg
      have hxlen : l.length = op.length + x.length := by rw [hx, List.length_append]
      have hdx : l.drop op.length = x := by rw [hx, drop_len_append]
      rw [hdx]
      have s1 : ((x.drop (x.takeWhile Char.isDigit).length).drop
          (dotZero ++ cl).length).length ≤ x.length := by
        rw [List.length_drop, List.length_drop]
        omega
      omega
    · simp at h
  · simp at h

/-! ### Matchers fail where their leading literal is absent -/

theorem mLit_none {s t l : List Char} (h : s.isPrefixOf l = false) :
    mLit s t l = none := by
  unfold mLit
  rw [h]
  rfl

theorem mCreator_none {l : List Char} (h : creatorOpen.isPrefixOf l = false) :
    mCreator l = none := by
  unfold mCreator
  rw [h]
  rfl

theorem mRes_none {l : List Char} (h : resOpen.isPrefixOf l = false) :
    mRes l = none := by
  unfold mRes
  rw [h]
  rfl

theorem mNorm_none {op cl l : List Char} (h : op.isPrefixOf l = false) :
    mNorm op cl l = none := by
  unfold mNorm
  rw [h]
  rfl

theorem mInject_none {t v l : List Char} (h : (timePat t).isPrefixOf l = false) :
    mInject t v l = none := by
  unfold mInject
  rw [h]
  rfl

/-- The lap-extension pattern requires a literal `<TPX` somewhere. -/
theorem mLapExt_none_of_no_TPX {l : List Char} (h : occursB tpxStart l = false) :
    mLapExt l = none := by
  unfold mLapExt
  have hws : tpxStart.isPrefixOf ((l.drop extOpen.length).dropWhile isPySpace)
      = false := by
    rw [dropWhile_eq_drop, List.drop_drop]
    exact occursB_false_no_start h _
  split
  · simp [hws]
  · rfl

/-- The xmlns-literal matcher also needs a literal `<TPX`. -/
theorem mLit_tpxXmlns_none {l : List Char} (h : tpxStart.isPrefixOf l = false) :
    mLit tpxXmlnsLit tpxNsOpen l = none := by
  apply mLit_none
  cases hx : tpxXmlnsLit.isPrefixOf l with
  | false => rfl
  | true =>
    have : tpxStart.isPrefixOf l = true :=
      prefixOf_trans (by decide) hx
    rw [this] at h
    exact absurd h (by simp)

/-! ### Dict lemmas -/

theorem dictFold_nil (d : SpeedDict) : dictFold d [] = d := rfl

theorem dictFold_cons (d : SpeedDict) (w : String × ℚ) (ws : List (String × ℚ)) :
    dictFold d (w :: ws) = dictFold (dictInsert w.1 w.2 d) ws := rfl

theorem dictFold_append (d : SpeedDict) (x y : List (String × ℚ)) :
    dictFold d (x ++ y) = dictFold (dictFold d x) y := by
  unfold dictFold
  exact List.foldl_append _ _ _ _

theorem dictLookup_insert_self (k : String) (v : ℚ) (d : SpeedDict) :
    dictLookup k (dictInsert k v d) = some v := by
  induction d with
  | nil => simp [dictInsert, dictLookup]
  | cons e rest ih =>
    by_cases he : e.1 = k
    · simp [dictInsert, dictLookup, he]
    · simp [dictInsert, dictLookup, he, ih]

theorem dictLookup_insert_other {k k2 : String} (h : k ≠ k2) (v : ℚ)
    (d : SpeedDict) : dictLookup k (dictInsert k2 v d) = dictLookup k d := by
  have hk2 : k2 ≠ k := fun hh => h hh.symm
  induction d with
  | nil => simp [dictInsert, dictLookup, hk2]
  | cons e rest ih =>
    by_cases he : e.1 = k2
    · have hek : e.1 ≠ k := by rw [he]; exact hk2
      simp [dictInsert, dictLookup, he, hek, hk2]
    · simp [dictInsert, dictLookup, he, ih]

theorem length_dictInsert_le (k : String) (v : ℚ) (d : SpeedDict) :
    (dictInsert k v d).length ≤ d.length + 1 := by
  induction d with
  | nil => simp [dictInsert]
  | cons e rest ih =>
    by_cases he : e.1 = k
    · have h1 : dictInsert k v (e :: rest) = (k, v) :: rest := by
        simp [dictInsert, he]
      rw [h1]
      simp only [List.length_cons]
      omega
    · have h1 : dictInsert k v (e :: rest) = e :: dictInsert k v rest := by
        simp [dictInsert, he]
      rw [h1]
      simp only [List.length_cons]
      omega

theorem length_dictFold_le (ws : List (String × ℚ)) :
    ∀ d : SpeedDict, (dictFold d ws).length ≤ d.length + ws.length := by
  induction ws with
  | nil => intro d; simp [dictFold_nil]
  | cons w rest ih =>
    intro d
    rw [dictFold_cons]
    calc (dictFold (dictInsert w.1 w.2 d) rest).length
        ≤ (dictInsert w.1 w.2 d).length + rest.length := ih _
      _ ≤ d.length + 1 + rest.length :=
          Nat.add_le_add_right (length_dictInsert_le _ _ _) _
      _ = d.length + (w :: rest).length := by simp [List.length_cons]; omega

theorem dictLookup_dictFold_not_mem {k : String} (ws : List (String × ℚ))
    (h : k ∉ ws.map Prod.fst) :
    ∀ d : SpeedDict, dictLookup k (dictFold d ws) = dictLookup k d := by
  induction ws with
  | nil => intro d; rfl
  | cons w rest ih =>
    intro d
    rw [List.map_cons] at h
    have h1 : k ≠ w.1 := fun hh => h (by simp [hh])
    have h2 : k ∉ rest.map Prod.fst := fun hh => h (by simp [hh])
    rw [dictFold_cons, ih h2, dictLookup_insert_other h1]

theorem dictLookup_dictFold_last {k : String} (v : ℚ)
    (w1 w2 : List (String × ℚ)) (h : k ∉ w2.map Prod.fst) (d : SpeedDict) :
    dictLookup k (dictFold d (w1 ++ (k, v) :: w2)) = some v := by
  rw [dictFold_append, dictFold_cons, dictLookup_dictFold_not_mem w2 h]
  exact dictLookup_insert_self _ _ _

theorem dictLookup_insert_isSome {k k2 : String} (v : ℚ) (d : SpeedDict)
    (h : (dictLookup k d).isSome = true) :
    (dictLookup k (dictInsert k2 v d)).isSome = true := by
  by_cases hk : k = k2
  · subst hk; rw [dictLookup_insert_self]; rfl
  · rw [dictLookup_insert_other hk]; exact h

theorem dictLookup_dictFold_isSome {k : String} (ws : List (String × ℚ)) :
    ∀ d : SpeedDict, (dictLookup k d).isSome = true →
      (dictLookup k (dictFold d ws)).isSome = true := by
  induction ws with
  | nil => intro d h; exact h
  | cons w rest ih =>
    intro d h
    rw [dictFold_cons]
    exact ih _ (dictLookup_insert_isSome _ _ h)

theorem dictLookup_dictFold_mem {k : String} {v : ℚ} (ws : List (String × ℚ))
    (h : (k, v) ∈ ws) :
    ∀ d : SpeedDict, (dictLookup k (dictFold d ws)).isSome = true := by
  induction ws with
  | nil => exact absurd h (List.not_mem_nil _)
  | cons w rest ih =>
    intro d
    rw [dictFold_cons]
    rcases List.mem_cons.mp h with hw | hw
    · apply dictLookup_dictFold_isSome
      rw [← hw]
      rw [dictLookup_insert_self]
      rfl
    · exact ih hw _

/-! ### The dict built by the loops equals the folded write lists -/

theorem processTrackpoints_eq_dictFold (pf pt : String → ℚ) :
    ∀ (tps : List XNode) (prevD : ℚ) (prevT : Option String) (d : SpeedDict),
      processTrackpoints pf pt tps prevD prevT d
        = dictFold d (trackComputedSpeeds pf pt tps prevD prevT) := by
  intro tps
  induction tps with
  | nil => intro prevD prevT d; rfl
  | cons tp rest ih =>
    intro prevD prevT d
    cases h1 : timeEl tp with
    | none =>
      cases h2 : distEl tp with
      | none => simp [processTrackpoints, trackComputedSpeeds, h1, h2, ih]
      | some de => simp [processTrackpoints, trackComputedSpeeds, h1, h2, ih]
    | some te =>
      cases h2 : distEl tp with
      | none => simp [processTrackpoints, trackComputedSpeeds, h1, h2, ih]
      | some de =>
        simp only [processTrackpoints, trackComputedSpeeds, h1, h2]
        rw [ih, dictFold_cons]

theorem processLap_eq_dictFold (pf pt : String → ℚ) (d : SpeedDict) (lap : XNode) :
    processLap pf pt d lap = dictFold d (lapWrites pf pt lap) := by
  unfold processLap lapWrites
  cases (elFindall trackTag lap).head? with
  | none => rfl
  | some tk => exact processTrackpoints_eq_dictFold pf pt _ _ _ _

theorem foldl_processLap_eq_dictFold (pf pt : String → ℚ) :
    ∀ (laps : List XNode) (d : SpeedDict),
      laps.foldl (processLap pf pt) d = dictFold d (catMap (lapWrites pf pt) laps) := by
  intro laps
  induction laps with
  | nil => intro d; rfl
  | cons lap rest ih =>
    intro d
    rw [List.foldl_cons, ih, processLap_eq_dictFold]
    show dictFold (dictFold d (lapWrites pf pt lap)) (catMap (lapWrites pf pt) rest)
      = dictFold d (lapWrites pf pt lap ++ catMap (lapWrites pf pt) rest)
    rw [dictFold_append]

theorem processActivity_eq_dictFold (pf pt : String → ℚ) (d : SpeedDict)
    (a : XNode) : processActivity pf pt d a = dictFold d (activityWrites pf pt a) := by
  unfold processActivity activityWrites
  exact foldl_processLap_eq_dictFold pf pt _ d

theorem foldl_processActivity_eq_dictFold (pf pt : String → ℚ) :
    ∀ (acts : List XNode) (d : SpeedDict),
      acts.foldl (processActivity pf pt) d
        = dictFold d (catMap (activityWrites pf pt) acts) := by
  intro acts
  induction acts with
  | nil => intro d; rfl
  | cons a rest ih =>
    intro d
    rw [List.foldl_cons, ih, processActivity_eq_dictFold]
    show dictFold (dictFold d (activityWrites pf pt a)) (catMap (activityWrites pf pt) rest)
      = dictFold d (activityWrites pf pt a ++ catMap (activityWrites pf pt) rest)
    rw [dictFold_append]

theorem buildSpeedData_eq_dictFold (pf pt : String → ℚ) (root : XNode) :
    buildSpeedData pf pt root = dictFold [] (docWrites pf pt root) := by
  unfold buildSpeedData docWrites
  exact foldl_processActivity_eq_dictFold pf pt _ _

/-! ### catMap decomposition -/

theorem catMap_append {α β : Type} (f : α → List β) :
    ∀ x y : List α, catMap f (x ++ y) = catMap f x ++ catMap f y := by
  intro x
  induction x with
  | nil => intro y; rfl
  | cons a rest ih =>
    intro y
    show f a ++ catMap f (rest ++ y) = (f a ++ catMap f rest) ++ catMap f y
    rw [ih, List.append_assoc]

theorem catMap_cons {α β : Type} (f : α → List β) (a : α) (x : List α) :
    catMap f (a :: x) = f a ++ catMap f x := rfl

theorem mem_catMap {α β : Type} (f : α → List β) {b : β} {a : α} :
    ∀ {x : List α}, a ∈ x → b ∈ f a → b ∈ catMap f x := by
  intro x
  induction x with
  | nil => intro h; exact absurd h (List.not_mem_nil _)
  | cons c rest ih =>
    intro h hb
    rcases List.mem_cons.mp h with hc | hc
    · subst hc
      exact List.mem_append.mpr (Or.inl hb)
    · exact List.mem_append.mpr (Or.inr (ih hc hb))

/-! ### Basic facts about the speed walk -/

theorem calcSpeed_no_prev (pt : String → ℚ) (prevD currD : ℚ) (currT : String) :
    calcSpeed pt prevD currD none currT = 0 := rfl

/-- The first write of a track walk started with `prev_time = None` carries
speed `0`. -/
theorem trackComputedSpeeds_first_zero (pf pt : String → ℚ) :
    ∀ (tps : List XNode) (prevD : ℚ) {t : String} {s : ℚ}
      {rest : List (String × ℚ)},
      trackComputedSpeeds pf pt tps prevD none = (t, s) :: rest → s = 0 := by
  intro tps
  induction tps with
  | nil => intro prevD t s rest h; exact absurd h (by simp [trackComputedSpeeds])
  | cons tp tl ih =>
    intro prevD t s rest h
    cases h1 : timeEl tp with
    | none =>
      rw [trackComputedSpeeds, h1] at h
      exact ih _ h
    | some te =>
      cases h2 : distEl tp with
      | none =>
        rw [trackComputedSpeeds, h1, h2] at h
        exact ih _ h
      | some de =>
        rw [trackComputedSpeeds, h1, h2] at h
        have := (List.cons.injEq _ _ _ _).mp h
        have h3 : s = calcSpeed pt prevD (pf (textOf de)) none (textOf te) :=
          (congrArg Prod.snd this.1).symm
        rw [h3, calcSpeed_no_prev]

/-- If the head entry of a walk whose previous timestamp is `τ` has timestamp
`τ` again, its speed is zero (`time_delta == 0` guard). -/
theorem trackComputedSpeeds_dup_head_zero (pf pt : String → ℚ) :
    ∀ (tps : List XNode) (prevD : ℚ) (τ t2 : String) (s2 : ℚ)
      (rest : List (String × ℚ)),
      trackComputedSpeeds pf pt tps prevD (some τ) = (t2, s2) :: rest →
      t2 = τ → s2 = 0 := by
  intro tps
  induction tps with
  | nil => intro prevD τ t2 s2 rest h; exact absurd h (by simp [trackComputedSpeeds])
  | cons tp tl ih =>
    intro prevD τ t2 s2 rest h heq
    cases h1 : timeEl tp with
    | none =>
      rw [trackComputedSpeeds, h1] at h
      exact ih _ _ _ _ _ h heq
    | some te =>
      cases h2 : distEl tp with
      | none =>
        rw [trackComputedSpeeds, h1, h2] at h
        exact ih _ _ _ _ _ h heq
      | some de =>
        rw [trackComputedSpeeds, h1, h2] at h
        have hinj := (List.cons.injEq _ _ _ _).mp h
        have ht : textOf te = t2 := congrArg Prod.fst hinj.1
        have h3 : s2 = calcSpeed pt prevD (pf (textOf de)) (some τ) (textOf te) :=
          (congrArg Prod.snd hinj.1).symm
        rw [h3, ht, heq]
        unfold calcSpeed
        simp

/-! ### Success lemmas: where the patterns do match -/

/-- `findCloseLine` finds the closing literal across a newline-free block in
which the closing literal does not start earlier. -/
theorem findCloseLine_concat {cls : List Char} (hcls : cls ≠ []) :
    ∀ (b c : List Char), (∀ ch ∈ b, ch ≠ '\n') →
      (∀ i, i < b.length → cls.isPrefixOf ((b ++ (cls ++ c)).drop i) = false) →
      findCloseLine cls (b ++ (cls ++ c)) = some c := by
  intro b
  induction b with
  | nil =>
    intro c _ _
    rw [List.nil_append]
    cases hc : cls with
    | nil => exact absurd hc hcls
    | cons d ds =>
      subst hc
      have hg : (d :: ds).isPrefixOf (d :: (ds ++ c)) = true :=
        prefixOf_self_append (d :: ds) c
      have hdrop : (d :: (ds ++ c)).drop (d :: ds).length = c :=
        drop_len_append (d :: ds) c
      show findCloseLine (d :: ds) (d :: (ds ++ c)) = some c
      rw [findCloseLine, if_pos hg, hdrop]
  | cons ch bs ih =>
    intro c hb h3
    have hg0 : cls.isPrefixOf (ch :: (bs ++ (cls ++ c))) = false := by
      have := h3 0 (Nat.succ_pos _)
      simpa using this
    have hnotnl : ¬(ch = '\n') := hb ch (by simp)
    show findCloseLine cls (ch :: (bs ++ (cls ++ c))) = some c
    rw [findCloseLine, if_neg (by simp [hg0]), if_neg hnotnl]
    have hb2 : ∀ d ∈ bs, d ≠ '\n' := fun d hd => hb d (by simp [hd])
    have h32 : ∀ i, i < bs.length →
        cls.isPrefixOf ((bs ++ (cls ++ c)).drop i) = false := by
      intro i hi
      have := h3 (i + 1) (Nat.succ_lt_succ hi)
      simpa using this
    exact ih c hb2 h32

/-- `findSpeedRun` finds the first `<ns3:Speed>[\d.]+<` occurrence following a
block in which `<ns3:Speed>` does not start. -/
theorem findSpeedRun_concat :
    ∀ (mid num rest : List Char),
      (∀ i, i < mid.length → speedNsOpen.isPrefixOf
        ((mid ++ (speedNsOpen ++ (num ++ '<' :: rest))).drop i) = false) →
      num ≠ [] → (∀ c ∈ num, isDigitDot c = true) →
      findSpeedRun (mid ++ (speedNsOpen ++ (num ++ '<' :: rest)))
        = some (mid ++ speedNsOpen, num, '<' :: rest) := by
  intro mid
  induction mid with
  | nil =>
    intro num rest _ h3 h4
    rw [List.nil_append]
    have hg : speedNsOpen.isPrefixOf ('<' :: ("ns3:Speed>".data ++ (num ++ '<' :: rest)))
        = true := prefixOf_self_append speedNsOpen (num ++ '<' :: rest)
    have hdrop : ('<' :: ("ns3:Speed>".data ++ (num ++ '<' :: rest))).drop
        speedNsOpen.length = num ++ '<' :: rest :=
      drop_len_append speedNsOpen (num ++ '<' :: rest)
    have htake : (num ++ '<' :: rest).takeWhile isDigitDot = num := by
      rw [takeWhile_append_all _ h4, takeWhile_cons_neg rest (by decide),
        List.append_nil]
    have hnum : num.isEmpty = false := by
      cases num with
      | nil => exact absurd rfl h3
      | cons _ _ => rfl
    show findSpeedRun ('<' :: ("ns3:Speed>".data ++ (num ++ '<' :: rest)))
        = some (speedNsOpen, num, '<' :: rest)
    rw [findSpeedRun, if_pos hg, hdrop, htake, drop_len_append num ('<' :: rest),
      if_pos (by rw [hnum]; rfl)]
  | cons c ms ih =>
    intro num rest h2 h3 h4
    have hg0 : speedNsOpen.isPrefixOf
        (c :: (ms ++ (speedNsOpen ++ (num ++ '<' :: rest)))) = false := by
      have := h2 0 (Nat.succ_pos _)
      simpa using this
    have h22 : ∀ i, i < ms.length → speedNsOpen.isPrefixOf
        ((ms ++ (speedNsOpen ++ (num ++ '<' :: rest))).drop i) = false := by
      intro i hi
      have := h2 (i + 1) (Nat.succ_lt_succ hi)
      simpa using this
    show findSpeedRun (c :: (ms ++ (speedNsOpen ++ (num ++ '<' :: rest))))
        = some ((c :: ms) ++ speedNsOpen, num, '<' :: rest)
    rw [findSpeedRun, if_neg (by simp [hg0]), ih num rest h22 h3 h4]
    rfl

/-- `mNorm` matches exactly an `op ++ digits ++ ".0" ++ cl` block. -/
theorem mNorm_found (op cl d b : List Char) (hd : d ≠ [])
    (hdig : ∀ c ∈ d, c.isDigit = true) :
    mNorm op cl (op ++ (d ++ (dotZero ++ (cl ++ b)))) = some (op ++ d ++ cl, b) := by
  unfold mNorm
  rw [if_pos (prefixOf_self_append op (d ++ (dotZero ++ (cl ++ b)))),
    drop_len_append op (d ++ (dotZero ++ (cl ++ b))),
    takeWhile_append_all _ hdig]
  have hdz : (dotZero ++ (cl ++ b)).takeWhile Char.isDigit = [] := by
    show ('.' :: ("0".data ++ (cl ++ b))).takeWhile Char.isDigit = []
    exact takeWhile_cons_neg _ (by decide)
  rw [hdz, List.append_nil, drop_len_append d (dotZero ++ (cl ++ b))]
  have hde : d.isEmpty = false := by
    cases d with
    | nil => exact absurd rfl hd
    | cons _ _ => rfl
  have h6 : (dotZero ++ cl).isPrefixOf (dotZero ++ (cl ++ b)) = true := by
    have := prefixOf_self_append (dotZero ++ cl) b
    rw [List.append_assoc] at this
    exact this
  rw [if_pos (by rw [hde, h6]; rfl)]
  have h7 : (dotZero ++ (cl ++ b)).drop (dotZero ++ cl).length = b := by
    rw [← List.append_assoc]
    exact drop_len_append _ _
  rw [h7]

/-- One literal replacement: the occurrence after a match-free block is
replaced, and substitution continues behind it. -/
theorem pyReplace_concat (s t : List Char) (hs : s ≠ []) (a b : List Char)
    (h : ∀ i, i < a.length → s.isPrefixOf ((a ++ (s ++ b)).drop i) = false) :
    pyReplace s t (a ++ (s ++ b)) = a ++ (t ++ pyReplace s t b) := by
  unfold pyReplace
  rw [reSubAll_copy a _ (fun i hi => mLit_none (h i hi))]
  have hm : mLit s t (s ++ b) = some (t, b) := by
    unfold mLit
    have hse : s.isEmpty = false := by
      cases s with
      | nil => exact absurd rfl hs
      | cons _ _ => rfl
    rw [if_pos (by rw [prefixOf_self_append, hse]; rfl), drop_len_append]
  rw [reSubAll_match (shrink_mLit s t) hm]

/-! ### Further facts about the speed walk -/

theorem trackComputedSpeeds_length_le (pf pt : String → ℚ) :
    ∀ (tps : List XNode) (prevD : ℚ) (prevT : Option String),
      (trackComputedSpeeds pf pt tps prevD prevT).length ≤ tps.length := by
  intro tps
  induction tps with
  | nil => intro prevD prevT; simp [trackComputedSpeeds]
  | cons tp rest ih =>
    intro prevD prevT
    cases h1 : timeEl tp with
    | none =>
      rw [trackComputedSpeeds, h1]
      exact Nat.le_succ_of_le (ih _ _)
    | some te =>
      cases h2 : distEl tp with
      | none =>
        rw [trackComputedSpeeds, h1, h2]
        exact Nat.le_succ_of_le (ih _ _)
      | some de =>
        rw [trackComputedSpeeds, h1, h2]
        simp only [List.length_cons]
        exact Nat.succ_le_succ (ih _ _)

/-- A valid trackpoint's timestamp is written by the walk. -/
theorem trackComputedSpeeds_mem (pf pt : String → ℚ) {tp te de : XNode}
    (h5 : timeEl tp = some te) (h6 : distEl tp = some de) :
    ∀ (tps : List XNode) (prevD : ℚ) (prevT : Option String), tp ∈ tps →
      ∃ s, (textOf te, s) ∈ trackComputedSpeeds pf pt tps prevD prevT := by
  intro tps
  induction tps with
  | nil => intro prevD prevT h; exact absurd h (List.not_mem_nil _)
  | cons tp0 rest ih =>
    intro prevD prevT hmem
    rcases List.mem_cons.mp hmem with heq | hmem2
    · subst heq
      rw [trackComputedSpeeds, h5, h6]
      exact ⟨_, List.mem_cons_self _ _⟩
    · cases h1 : timeEl tp0 with
      | none =>
        rw [trackComputedSpeeds, h1]
        exact ih _ _ hmem2
      | some te0 =>
        cases h2 : distEl tp0 with
        | none =>
          rw [trackComputedSpeeds, h1, h2]
          exact ih _ _ hmem2
        | some de0 =>
          rw [trackComputedSpeeds, h1, h2]
          obtain ⟨s, hs⟩ := ih (pf (textOf de0)) (some (textOf te0)) hmem2
          exact ⟨s, List.mem_cons_of_mem _ hs⟩

/-! ### The claims -/

/-- C1: for every track with at least two valid (timestamp, distance) samples,
the recomputed speed of the first valid sample of that track is exactly 0,
regardless of the first sample's distance value (the walk starts with
`prev_time = None`, and `calculate_speed` returns 0 then). -/
theorem firstValidSampleSpeedZero (pf pt : String → ℚ) (tps : List XNode)
    (h : 2 ≤ (trackComputedSpeeds pf pt tps 0 none).length) :
    ∃ t, (trackComputedSpeeds pf pt tps 0 none).head? = some (t, 0) := by
  cases hl : trackComputedSpeeds pf pt tps 0 none with
  | nil => rw [hl] at h; simp at h
  | cons e rest =>
    obtain ⟨t, s⟩ := e
    have h0 : s = 0 := trackComputedSpeeds_first_zero pf pt tps 0 hl
    subst h0
    exact ⟨t, rfl⟩

/-- Witness for C1 on a concrete two-sample track. -/
theorem firstValidSampleSpeedZero_witness :
    2 ≤ (trackComputedSpeeds numQ timeQ (elFindall trackpointTag c3Track1) 0 none).length ∧
    ∃ t, (trackComputedSpeeds numQ timeQ (elFindall trackpointTag c3Track1) 0 none).head?
      = some (t, 0) :=
  ⟨by decide, firstValidSampleSpeedZero numQ timeQ _ (by decide)⟩

/-- C4: consecutive valid samples with equal timestamps give the later sample
speed exactly 0, and `calculate_speed` never raises `ZeroDivisionError` for
any input (it always returns `Except.ok` of the total value). -/
theorem equalTimestampSpeedZeroNoDivZero :
    (∀ (pt : String → ℚ) (prevD currD : ℚ) (prevT : Option String) (currT : String),
      calculate_speed pt prevD currD prevT currT
        = Except.ok (calcSpeed pt prevD currD prevT currT)) ∧
    (∀ (pf pt : String → ℚ) (tps : List XNode) (prevD : ℚ) (prevT : Option String)
      (n : Nat) (t1 t2 : String) (s1 s2 : ℚ),
      (trackComputedSpeeds pf pt tps prevD prevT).get? n = some (t1, s1) →
      (trackComputedSpeeds pf pt tps prevD prevT).get? (n + 1) = some (t2, s2) →
      t1 = t2 → s2 = 0) := by
  constructor
  · intro pt prevD currD prevT currT
    cases prevT with
    | none => rfl
    | some p =>
      by_cases h : pt currT - pt p = 0
      · simp [calculate_speed, calcSpeed, pydiv, h]
      · simp [calculate_speed, calcSpeed, pydiv, h]
  · intro pf pt tps
    induction tps with
    | nil =>
      intro prevD prevT n t1 t2 s1 s2 h1 h2 _
      rw [trackComputedSpeeds] at h1
      simp at h1
    | cons tp rest ih =>
      intro prevD prevT n t1 t2 s1 s2 h1 h2 heq
      cases ht : timeEl tp with
      | none =>
        rw [trackComputedSpeeds, ht] at h1 h2
        exact ih _ _ _ _ _ _ _ h1 h2 heq
      | some te =>
        cases hd : distEl tp with
        | none =>
          rw [trackComputedSpeeds, ht, hd] at h1 h2
          exact ih _ _ _ _ _ _ _ h1 h2 heq
        | some de =>
          rw [trackComputedSpeeds, ht, hd] at h1 h2
          cases n with
          | zero =>
            have ht1 : textOf te = t1 := by
              have := (Option.some.injEq _ _).mp h1
              exact congrArg Prod.fst this
            rw [List.get?_cons_succ] at h2
            cases hL : trackComputedSpeeds pf pt rest (pf (textOf de))
                (some (textOf te)) with
            | nil => rw [hL] at h2; simp at h2
            | cons e2 r2 =>
              rw [hL] at h2
              have he2 : e2 = (t2, s2) := by simpa using h2
              refine trackComputedSpeeds_dup_head_zero pf pt rest (pf (textOf de))
                (textOf te) t2 s2 r2 ?_ ?_
              · rw [hL, he2]
              · rw [← heq, ← ht1]
          | succ n =>
            rw [List.get?_cons_succ] at h1 h2
            exact ih _ _ _ _ _ _ _ h1 h2 heq

/-- Witness for C4: a track with a duplicated timestamp. -/
theorem equalTimestampSpeedZeroNoDivZero_witness :
    (calculate_speed timeQ 1 2 (some "T0") "T0"
      = Except.ok (calcSpeed timeQ 1 2 (some "T0") "T0")) ∧
    (trackComputedSpeeds numQ timeQ c4Tps 0 none).get? 0 = some ("T0", 0) ∧
    (trackComputedSpeeds numQ timeQ c4Tps 0 none).get? 1 = some ("T0", 0) ∧
    (0 : ℚ) = 0 :=
  ⟨equalTimestampSpeedZeroNoDivZero.1 timeQ 1 2 (some "T0") "T0",
   by decide, by decide,
   equalTimestampSpeedZeroNoDivZero.2 numQ timeQ c4Tps 0 none 0 "T0" "T0" 0 0
     (by decide) (by decide) rfl⟩

/-- C2 (counterexample): injecting the speed of timestamp `A` — whose sample
has no Speed element — overwrites the Speed content of the *next* sample
(timestamp `B`), because the pattern's `.*?` runs with `re.DOTALL` and is not
bounded by the end of the Trackpoint.  So a Speed element belonging to a
different sample is modified. -/
theorem speedInjectionCrossSample_cex :
    injectOne "A".data "0".data c2Doc = c2Out ∧ c2Out ≠ c2Doc := by
  constructor
  · decide
  · decide

/-- C2 (amended): for a timestamp in the lookup, the substitution finds the
first occurrence of `<Time>t</Time>` and replaces the numeric content of the
first following `<ns3:Speed>` element (whichever sample it belongs to) with
the recomputed value; the text after that element — including any later
occurrences — is kept verbatim, so each timestamp is replaced at most once. -/
theorem speedInjectionFirstMatch (t v a mid num rest : List Char)
    (h1 : ∀ i, i < a.length → (timePat t).isPrefixOf
      ((a ++ (timePat t ++ (mid ++ (speedNsOpen ++ (num ++ '<' :: rest))))).drop i) = false)
    (h2 : ∀ i, i < mid.length → speedNsOpen.isPrefixOf
      ((mid ++ (speedNsOpen ++ (num ++ '<' :: rest))).drop i) = false)
    (h3 : num ≠ []) (h4 : ∀ c ∈ num, isDigitDot c = true) :
    injectOne t v (a ++ (timePat t ++ (mid ++ (speedNsOpen ++ (num ++ '<' :: rest)))))
      = a ++ (timePat t ++ (mid ++ (speedNsOpen ++ (v ++ '<' :: rest)))) := by
  unfold injectOne
  rw [subOnce_copy a _ (fun i hi => mInject_none (h1 i hi))]
  have hm : mInject t v (timePat t ++ (mid ++ (speedNsOpen ++ (num ++ '<' :: rest))))
      = some (timePat t ++ (mid ++ speedNsOpen) ++ v, '<' :: rest) := by
    unfold mInject
    rw [if_pos (prefixOf_self_append _ _), drop_len_append,
      findSpeedRun_concat mid num rest h2 h3 h4]
    rfl
  rw [subOnce_match hm]
  simp [List.append_assoc]

/-- Witness for the amended C2. -/
theorem speedInjectionFirstMatch_witness :
    injectOne "X".data "2.5".data
      ("<a>".data ++ (timePat "X".data ++ ("<b/>".data ++ (speedNsOpen ++
        ("7".data ++ '<' :: "/ns3:Speed>".data)))))
      = "<a>".data ++ (timePat "X".data ++ ("<b/>".data ++ (speedNsOpen ++
        ("2.5".data ++ '<' :: "/ns3:Speed>".data)))) :=
  speedInjectionFirstMatch "X".data "2.5".data "<a>".data "<b/>".data "7".data
    "/ns3:Speed>".data (by decide) (by decide) (by decide) (by decide)

/-- C3 (counterexample): the timestamp `T0` is the first valid sample of the
first lap's track and is mapped to 0 there, but the same timestamp string
reappears as a *non-first* sample of the second lap's track, and that later
write overwrites the entry: the final lookup maps `T0` to `-1/10`, not 0. -/
theorem speedLookupFirstSample_cex :
    (trackComputedSpeeds numQ timeQ (elFindall trackpointTag c3Track1) 0 none).head?
      = some ("T0", 0) ∧
    dictLookup "T0" (buildSpeedData numQ timeQ c3Doc) = some (-(1/10)) := by
  constructor
  · decide
  · decide

/-- C3 (amended): the lookup gains at most one entry per Trackpoint of a
processed track, and the entry keyed by the first valid sample's timestamp of
a track maps to 0 provided that timestamp is not written again later (by the
rest of that track, by a later lap of the same activity, or by a later
activity); a later occurrence of the same timestamp overwrites the entry. -/
theorem speedLookupInvariant :
    (∀ (pf pt : String → ℚ) (tps : List XNode) (d : SpeedDict),
      (processTrackpoints pf pt tps 0 none d).length ≤ d.length + tps.length) ∧
    (∀ (pf pt : String → ℚ) (root a lp tk : XNode) (as1 as2 ls1 ls2 : List XNode)
      (T : String) (s : ℚ) (rest1 : List (String × ℚ)),
      elFindall actTag root = as1 ++ a :: as2 →
      elFindall lapTag a = ls1 ++ lp :: ls2 →
      (elFindall trackTag lp).head? = some tk →
      trackComputedSpeeds pf pt (elFindall trackpointTag tk) 0 none = (T, s) :: rest1 →
      T ∉ rest1.map Prod.fst →
      T ∉ (catMap (lapWrites pf pt) ls2).map Prod.fst →
      T ∉ (catMap (activityWrites pf pt) as2).map Prod.fst →
      dictLookup T (buildSpeedData pf pt root) = some 0) := by
  constructor
  · intro pf pt tps d
    rw [processTrackpoints_eq_dictFold]
    calc (dictFold d (trackComputedSpeeds pf pt tps 0 none)).length
        ≤ d.length + (trackComputedSpeeds pf pt tps 0 none).length :=
          length_dictFold_le _ _
      _ ≤ d.length + tps.length :=
          Nat.add_le_add_left (trackComputedSpeeds_length_le pf pt tps 0 none) _
  · intro pf pt root a lp tk as1 as2 ls1 ls2 T s rest1 h1 h2 h3 h4 h5 h6 h7
    have hs0 : s = 0 := trackComputedSpeeds_first_zero pf pt _ 0 h4
    subst hs0
    have e1 : docWrites pf pt root
        = catMap (activityWrites pf pt) as1 ++ (activityWrites pf pt a
          ++ catMap (activityWrites pf pt) as2) := by
      unfold docWrites
      rw [h1, catMap_append, catMap_cons]
    have e2 : activityWrites pf pt a
        = catMap (lapWrites pf pt) ls1 ++ (lapWrites pf pt lp
          ++ catMap (lapWrites pf pt) ls2) := by
      unfold activityWrites
      rw [h2, catMap_append, catMap_cons]
    have e3 : lapWrites pf pt lp = (T, 0) :: rest1 := by
      simp only [lapWrites, h3]
      exact h4
    have hnot : T ∉ (rest1 ++ (catMap (lapWrites pf pt) ls2
        ++ catMap (activityWrites pf pt) as2)).map Prod.fst := by
      intro hmem
      rw [List.map_append, List.map_append] at hmem
      rcases List.mem_append.mp hmem with hx | hx
      · exact h5 hx
      rcases List.mem_append.mp hx with hy | hy
      · exact h6 hy
      · exact h7 hy
    rw [buildSpeedData_eq_dictFold, e1, e2, e3]
    have hsplit : catMap (activityWrites pf pt) as1
        ++ ((catMap (lapWrites pf pt) ls1 ++ ((T, 0) :: rest1
          ++ catMap (lapWrites pf pt) ls2))
          ++ catMap (activityWrites pf pt) as2)
        = (catMap (activityWrites pf pt) as1 ++ catMap (lapWrites pf pt) ls1)
          ++ (T, 0) :: (rest1 ++ (catMap (lapWrites pf pt) ls2
            ++ catMap (activityWrites pf pt) as2)) := by
      simp [List.append_assoc]
    rw [hsplit]
    exact dictLookup_dictFold_last 0 _ _ hnot []

/-- Witness for the amended C3 on a one-activity, one-lap document. -/
theorem speedLookupInvariant_witness :
    ((processTrackpoints numQ timeQ (elFindall trackpointTag c3Track1) 0 none []).length
      ≤ ([] : SpeedDict).length + (elFindall trackpointTag c3Track1).length) ∧
    dictLookup "T0" (buildSpeedData numQ timeQ c3wDoc) = some 0 :=
  ⟨speedLookupInvariant.1 numQ timeQ _ [],
   speedLookupInvariant.2 numQ timeQ c3wDoc (mkActivity [mkLap [c3Track1]])
     (mkLap [c3Track1]) c3Track1 [] [] [] [] "T0" 0 [("T1", 1/2)]
     (by decide) (by decide) (by decide) (by decide) (by decide) (by decide)
     (by decide)⟩

/-- C5 (counterexample): a Resistance element whose content spans two lines
survives the whole removal pipeline — the Resistance pattern is compiled
without `re.DOTALL`, so `.*?` cannot cross the newline — and `<Resistance>`
remains in the output. -/
theorem resistanceMultilineSurvives_cex :
    applyRemovalAndNamespaceRules c5Doc = c5Doc ∧ occursB resOpen c5Doc = true := by
  constructor
  · decide
  · decide

/-- C5 (amended): a Resistance element whose content stays on one line (and
is properly closed) is removed entirely; elements with content spanning lines
are not matched. -/
theorem resistanceSingleLineRemoved (a b c : List Char)
    (h1 : ∀ i, i < a.length → resOpen.isPrefixOf
      ((a ++ (resOpen ++ (b ++ (resClose ++ c)))).drop i) = false)
    (h2 : ∀ ch ∈ b, ch ≠ '\n')
    (h3 : ∀ i, i < b.length → resClose.isPrefixOf
      ((b ++ (resClose ++ c)).drop i) = false) :
    removeResistance (a ++ (resOpen ++ (b ++ (resClose ++ c))))
      = a ++ removeResistance c := by
  unfold removeResistance
  rw [reSubAll_copy a _ (fun i hi => mRes_none (h1 i hi))]
  have hm : mRes (resOpen ++ (b ++ (resClose ++ c))) = some ([], c) := by
    unfold mRes
    rw [if_pos (prefixOf_self_append _ _), drop_len_append,
      findCloseLine_concat (by decide) b c h2 h3]
    rfl
  rw [reSubAll_match shrink_mRes hm]
  rfl

/-- Witness for the amended C5. -/
theorem resistanceSingleLineRemoved_witness :
    removeResistance ("<x>".data ++ (resOpen ++ ("23".data ++ (resClose ++ "</x>".data))))
      = "<x>".data ++ removeResistance "</x>".data :=
  resistanceSingleLineRemoved "<x>".data "23".data "</x>".data
    (by decide) (by decide) (by decide)

/-- C6: the numeric normalisation rewrites exactly the `digits ++ ".0"` forms
of Value, Cadence and (prefixed) Watts elements to the bare integer form, and
the claim's fractional example `142.4` is left unmodified. -/
theorem numericNormalization :
    (∀ a d b : List Char, d ≠ [] → (∀ c ∈ d, c.isDigit = true) →
      (∀ i, i < a.length → valueOpen.isPrefixOf
        ((a ++ (valueOpen ++ (d ++ (dotZero ++ (valueClose ++ b))))).drop i) = false) →
      normValueTags (a ++ (valueOpen ++ (d ++ (dotZero ++ (valueClose ++ b)))))
        = a ++ (valueOpen ++ d ++ valueClose ++ normValueTags b)) ∧
    (∀ a d b : List Char, d ≠ [] → (∀ c ∈ d, c.isDigit = true) →
      (∀ i, i < a.length → cadenceOpen.isPrefixOf
        ((a ++ (cadenceOpen ++ (d ++ (dotZero ++ (cadenceClose ++ b))))).drop i) = false) →
      normCadenceTags (a ++ (cadenceOpen ++ (d ++ (dotZero ++ (cadenceClose ++ b)))))
        = a ++ (cadenceOpen ++ d ++ cadenceClose ++ normCadenceTags b)) ∧
    (∀ a d b : List Char, d ≠ [] → (∀ c ∈ d, c.isDigit = true) →
      (∀ i, i < a.length → wattsNsOpen.isPrefixOf
        ((a ++ (wattsNsOpen ++ (d ++ (dotZero ++ (wattsNsClose ++ b))))).drop i) = false) →
      normWattsTags (a ++ (wattsNsOpen ++ (d ++ (dotZero ++ (wattsNsClose ++ b)))))
        = a ++ (wattsNsOpen ++ d ++ wattsNsClose ++ normWattsTags b)) ∧
    (∀ a : List Char,
      (∀ i, i < a.length → valueOpen.isPrefixOf ((a ++ hr142).drop i) = false) →
      normValueTags (a ++ hr142) = a ++ hr142) := by
  refine ⟨?_, ?_, ?_, ?_⟩
  · intro a d b hd hdig h1
    unfold normValueTags
    rw [reSubAll_copy a _ (fun i hi => mNorm_none (h1 i hi)),
      reSubAll_match (shrink_mNorm _ _ (by decide)) (mNorm_found valueOpen valueClose d b hd hdig)]
  · intro a d b hd hdig h1
    unfold normCadenceTags
    rw [reSubAll_copy a _ (fun i hi => mNorm_none (h1 i hi)),
      reSubAll_match (shrink_mNorm _ _ (by decide)) (mNorm_found cadenceOpen cadenceClose d b hd hdig)]
  · intro a d b hd hdig h1
    unfold normWattsTags
    rw [reSubAll_copy a _ (fun i hi => mNorm_none (h1 i hi)),
      reSubAll_match (shrink_mNorm _ _ (by decide)) (mNorm_found wattsNsOpen wattsNsClose d b hd hdig)]
  · intro a h1
    unfold normValueTags
    rw [reSubAll_copy a _ (fun i hi => mNorm_none (h1 i hi))]
    have : reSubAll (mNorm valueOpen valueClose) hr142 = hr142 := by decide
    rw [this]

/-- Witness for C6: `142.0` is normalised, `142.4` is kept. -/
theorem numericNormalization_witness :
    (normValueTags ("<HeartRateBpm>".data ++ (valueOpen ++ ("142".data ++ (dotZero ++
        (valueClose ++ "</HeartRateBpm>".data)))))
      = "<HeartRateBpm>".data ++ (valueOpen ++ "142".data ++ valueClose
          ++ normValueTags "</HeartRateBpm>".data)) ∧
    (normCadenceTags ("<z>".data ++ (cadenceOpen ++ ("80".data ++ (dotZero ++
        (cadenceClose ++ "</z>".data)))))
      = "<z>".data ++ (cadenceOpen ++ "80".data ++ cadenceClose
          ++ normCadenceTags "</z>".data)) ∧
    (normWattsTags ("<z>".data ++ (wattsNsOpen ++ ("250".data ++ (dotZero ++
        (wattsNsClose ++ "</z>".data)))))
      = "<z>".data ++ (wattsNsOpen ++ "250".data ++ wattsNsClose
          ++ normWattsTags "</z>".data)) ∧
    (normValueTags ("<HeartRateBpm>".data ++ hr142)
      = "<HeartRateBpm>".data ++ hr142) :=
  ⟨numericNormalization.1 "<HeartRateBpm>".data "142".data "</HeartRateBpm>".data
      (by decide) (by decide) (by decide),
   numericNormalization.2.1 "<z>".data "80".data "</z>".data
      (by decide) (by decide) (by decide),
   numericNormalization.2.2.1 "<z>".data "250".data "</z>".data
      (by decide) (by decide) (by decide),
   numericNormalization.2.2.2 "<HeartRateBpm>".data (by decide)⟩

/-- C7 (counterexample): a Lap with two Track elements.  `lap.find('.//Track')`
returns only the first one, so the second Track — although found by a
document-wide Track search — contributes nothing to the speed lookup: its
sample timestamp `TX` has no entry. -/
theorem secondTrackIgnored_cex :
    (elFindall trackTag c7Doc).length = 2 ∧
    trackComputedSpeeds numQ timeQ (elFindall trackpointTag c7Track2) 0 none
      = [("TX", 0)] ∧
    dictLookup "TX" (buildSpeedData numQ timeQ c7Doc) = none := by
  refine ⟨by decide, by decide, by decide⟩

/-- C7 (amended): only the first Track of each Lap is extracted; every valid
(timestamp, distance) sample of that first Track does contribute an entry to
the speed lookup. -/
theorem firstTrackSamplesContribute (pf pt : String → ℚ)
    (root a lp tk tp te de : XNode)
    (h1 : a ∈ elFindall actTag root) (h2 : lp ∈ elFindall lapTag a)
    (h3 : (elFindall trackTag lp).head? = some tk)
    (h4 : tp ∈ elFindall trackpointTag tk)
    (h5 : timeEl tp = some te) (h6 : distEl tp = some de) :
    (dictLookup (textOf te) (buildSpeedData pf pt root)).isSome = true := by
  obtain ⟨s, hs⟩ := trackComputedSpeeds_mem pf pt h5 h6
    (elFindall trackpointTag tk) 0 none h4
  have hlap : (textOf te, s) ∈ lapWrites pf pt lp := by
    simp only [lapWrites, h3]
    exact hs
  have hact : (textOf te, s) ∈ activityWrites pf pt a := mem_catMap _ h2 hlap
  have hdoc : (textOf te, s) ∈ docWrites pf pt root := mem_catMap _ h1 hact
  rw [buildSpeedData_eq_dictFold]
  exact dictLookup_dictFold_mem _ hdoc _

/-- Witness for the amended C7 on the two-track document. -/
theorem firstTrackSamplesContribute_witness :
    (dictLookup (textOf (el timeTag "T0" []))
      (buildSpeedData numQ timeQ c7Doc)).isSome = true :=
  firstTrackSamplesContribute numQ timeQ c7Doc (mkActivity [c7Lap]) c7Lap c7Track1
    (sampleTp "T0" "5") (el timeTag "T0" []) (el distTag "5" [])
    (by decide) (by decide) (by decide) (by decide) (by decide) (by decide)

/-- C8: on a document already in the target form — no `<Creator>`, no
`<Resistance>`, no `<TPX`/`</TPX>`/`<Speed>`/`</Speed>`/`<Watts>`/`</Watts>`
in unprefixed form — the removal and namespace rules change nothing: the
matched patterns no longer appear, so nothing more is removed and the prefix
is not applied twice. -/
theorem rewriteRulesIdempotentOnConverted (l : List Char)
    (hC : occursB creatorOpen l = false) (hT : occursB tpxStart l = false)
    (hTc : occursB tpxCloseTag l = false) (hS : occursB speedOpenTag l = false)
    (hSc : occursB speedCloseTag l = false) (hW : occursB wattsOpenTag l = false)
    (hWc : occursB wattsCloseTag l = false) (hR : occursB resOpen l = false) :
    applyRemovalAndNamespaceRules l = l := by
  unfold applyRemovalAndNamespaceRules removeCreator removeLapExtensions
    removeResistance pyReplace
  rw [reSubAll_id shrink_mCreator
      (fun i _ => mCreator_none (occursB_false_no_start hC i)),
    reSubAll_id shrink_mLapExt
      (fun i _ => mLapExt_none_of_no_TPX (occursB_drop_false hT i)),
    reSubAll_id (shrink_mLit _ _)
      (fun i _ => mLit_tpxXmlns_none (occursB_false_no_start hT i)),
    reSubAll_id (shrink_mLit _ _)
      (fun i _ => mLit_none (occursB_false_no_start hTc i)),
    reSubAll_id (shrink_mLit _ _)
      (fun i _ => mLit_none (occursB_false_no_start hS i)),
    reSubAll_id (shrink_mLit _ _)
      (fun i _ => mLit_none (occursB_false_no_start hSc i)),
    reSubAll_id (shrink_mLit _ _)
      (fun i _ => mLit_none (occursB_false_no_start hW i)),
    reSubAll_id (shrink_mLit _ _)
      (fun i _ => mLit_none (occursB_false_no_start hWc i)),
    reSubAll_id shrink_mRes
      (fun i _ => mRes_none (occursB_false_no_start hR i))]

/-- Witness for C8 on an already-converted snippet. -/
theorem rewriteRulesIdempotentOnConverted_witness :
    applyRemovalAndNamespaceRules c8Doc = c8Doc :=
  rewriteRulesIdempotentOnConverted c8Doc (by decide) (by decide) (by decide)
    (by decide) (by decide) (by decide) (by decide) (by decide)

/-- C9: when the post-rewrite pretty-printing stage (parse, indent,
serialise) fails, the conversion emits the rewritten text verbatim — no
declaration header, no indentation — and when it succeeds the output is the
header plus the rendered tree; an output is produced either way. -/
theorem serializeFallbackVerbatim (pp : List Char → Option (List Char))
    (content : List Char) :
    (pp content = none → emitFinal pp content = content) ∧
    (∀ r, pp content = some r → emitFinal pp content = xmlHeader ++ r) := by
  constructor
  · intro h
    unfold emitFinal
    rw [h]
  · intro r h
    unfold emitFinal
    rw [h]

/-- Witness for C9. -/
theorem serializeFallbackVerbatim_witness :
    emitFinal (fun _ => none) "<a><b></a>".data = "<a><b></a>".data :=
  (serializeFallbackVerbatim (fun _ => none) "<a><b></a>".data).1 rfl

/-- C10: each namespace-prefix rewrite is a global plain-text replacement:
whatever the context around an occurrence of `</TPX>`, `<Speed>`, `</Speed>`,
`<Watts>` or `</Watts>` — element markup or character data — the occurrence is
rewritten to the `ns3:`-prefixed form and the replacement continues over the
rest of the text. -/
theorem namespaceReplaceGlobal :
    (∀ a b : List Char, (∀ i, i < a.length → tpxCloseTag.isPrefixOf
        ((a ++ (tpxCloseTag ++ b)).drop i) = false) →
      pyReplace tpxCloseTag tpxNsClose (a ++ (tpxCloseTag ++ b))
        = a ++ (tpxNsClose ++ pyReplace tpxCloseTag tpxNsClose b)) ∧
    (∀ a b : List Char, (∀ i, i < a.length → speedOpenTag.isPrefixOf
        ((a ++ (speedOpenTag ++ b)).drop i) = false) →
      pyReplace speedOpenTag speedNsOpen (a ++ (speedOpenTag ++ b))
        = a ++ (speedNsOpen ++ pyReplace speedOpenTag speedNsOpen b)) ∧
    (∀ a b : List Char, (∀ i, i < a.length → speedCloseTag.isPrefixOf
        ((a ++ (speedCloseTag ++ b)).drop i) = false) →
      pyReplace speedCloseTag speedNsClose (a ++ (speedCloseTag ++ b))
        = a ++ (speedNsClose ++ pyReplace speedCloseTag speedNsClose b)) ∧
    (∀ a b : List Char, (∀ i, i < a.length → wattsOpenTag.isPrefixOf
        ((a ++ (wattsOpenTag ++ b)).drop i) = false) →
      pyReplace wattsOpenTag wattsNsOpen (a ++ (wattsOpenTag ++ b))
        = a ++ (wattsNsOpen ++ pyReplace wattsOpenTag wattsNsOpen b)) ∧
    (∀ a b : List Char, (∀ i, i < a.length → wattsCloseTag.isPrefixOf
        ((a ++ (wattsCloseTag ++ b)).drop i) = false) →
      pyReplace wattsCloseTag wattsNsClose (a ++ (wattsCloseTag ++ b))
        = a ++ (wattsNsClose ++ pyReplace wattsCloseTag wattsNsClose b)) :=
  ⟨fun a b h => pyReplace_concat _ _ (by decide) a b h,
   fun a b h => pyReplace_concat _ _ (by decide) a b h,
   fun a b h => pyReplace_concat _ _ (by decide) a b h,
   fun a b h => pyReplace_concat _ _ (by decide) a b h,
   fun a b h => pyReplace_concat _ _ (by decide) a b h⟩

/-- Witness for C10: a `<Speed>` occurrence inside character data is rewritten
too. -/
theorem namespaceReplaceGlobal_witness :
    pyReplace speedOpenTag speedNsOpen
      ("<Name>run ".data ++ (speedOpenTag ++ " drill</Name>".data))
      = "<Name>run ".data ++ (speedNsOpen
          ++ pyReplace speedOpenTag speedNsOpen " drill</Name>".data) :=
  namespaceReplaceGlobal.2.1 "<Name>run ".data " drill</Name>".data (by decide)

end Tcx
